import Mathlib

/-!
Verification of the taxi-trip ETL and graph-analytics pipeline
(`data_loader.py` and `interface.py`).

The ingestion side (`DataLoader.load_transform_file`) is embedded as pure
functions over row lists: the column projection, the four-predicate filter
chain over the hard-coded Bronx zone list, the timestamp reformatting, the
staging-CSV naming and layout, and the per-row effect of the Cypher
`LOAD CSV ... MERGE` bulk load on a graph state.

The analytics side (`Interface.pagerank` and `Interface.bfs`) delegates the
actual graph algorithms to the external Neo4j/GDS engine; those engine
behaviours (descending score ordering, in-memory projection with weight
defaults, unweighted undirected shortest-path matching) are modelled from the
specification, while the Python-side result reshaping is embedded from the
source.

Missing values (pandas NaN) in the numeric columns are modelled as `none`:
a strict comparison against NaN is false, exactly as `Option.none` fails the
embedded comparison.
-/

namespace DPS

/-- A parsed timestamp as pandas `to_datetime` produces it: calendar fields
plus a sub-second (nanosecond) component. -/
structure Timestamp where
  year : Nat
  month : Nat
  day : Nat
  hour : Nat
  minute : Nat
  second : Nat
  nanosecond : Nat
deriving DecidableEq, Repr

/-- One input row after the column projection of `load_transform_file`
(the six retained columns, in source order).  `trip_distance` and
`fare_amount` are `none` when the value is missing (NaN). -/
structure Row where
  tpep_pickup_datetime : Timestamp
  tpep_dropoff_datetime : Timestamp
  PULocationID : Int
  DOLocationID : Int
  trip_distance : Option ℚ
  fare_amount : Option ℚ
deriving DecidableEq, Repr

/-- The hard-coded "bronx" allow-list from `data_loader.py`. -/
def bronx : List Int :=
  [3, 18, 20, 31, 32, 46, 47, 51, 58, 59, 60, 69, 78, 81, 94,
   119, 126, 136, 147, 159, 167, 168, 169, 174, 182, 183, 184,
   185, 199, 200, 208, 212, 213, 220, 235, 240, 241, 242,
   247, 248, 250, 254, 259]

/-- Strict comparison of a possibly missing value against a constant, as
pandas evaluates `series > c`: a missing value (NaN) compares false. -/
def gtQ : Option ℚ → ℚ → Bool
  | none, _ => false
  | some x, c => decide (c < x)

/-- Predicate 1 of the filter chain: pickup zone in the allow-list. -/
def puZone (r : Row) : Bool := bronx.contains r.PULocationID

/-- Predicate 2: dropoff zone in the allow-list. -/
def doZone (r : Row) : Bool := bronx.contains r.DOLocationID

/-- Predicate 3: `trip_distance > 0.1`. -/
def distPred (r : Row) : Bool := gtQ r.trip_distance (1/10)

/-- Predicate 4: `fare_amount > 2.5`. -/
def farePred (r : Row) : Bool := gtQ r.fare_amount (5/2)

/-- The filter chain of `load_transform_file`, statement by statement:
first the combined zone-membership filter, then the distance filter, then
the fare filter. -/
def filterTrips (rows : List Row) : List Row :=
  (((rows.filter (fun r => puZone r && doZone r)).filter distPred).filter farePred)

/-- Sequential application of an arbitrary list of row filters, used to state
that the order of the predicates does not matter. -/
def applyFilters (rows : List Row) (ps : List (Row → Bool)) : List Row :=
  ps.foldl (fun l p => l.filter p) rows

theorem applyFilters_nil (rows : List Row) : applyFilters rows [] = rows := rfl

theorem applyFilters_cons (rows : List Row) (p : Row → Bool) (ps : List (Row → Bool)) :
    applyFilters rows (p :: ps) = applyFilters (rows.filter p) ps := rfl

theorem filter_filter_comm (rows : List Row) (p q : Row → Bool) :
    (rows.filter p).filter q = (rows.filter q).filter p := by
  simp only [List.filter_filter]
  congr 1
  funext r
  exact Bool.and_comm (q r) (p r)

theorem applyFilters_perm (rows : List Row) :
    ∀ ps qs : List (Row → Bool), ps.Perm qs → applyFilters rows ps = applyFilters rows qs := by
  intro ps qs h
  induction h generalizing rows with
  | nil => rfl
  | cons p _ ih =>
      simp only [applyFilters_cons]
      exact ih (rows.filter p)
  | swap p q l =>
      simp only [applyFilters_cons]
      rw [filter_filter_comm rows q p]
  | trans _ _ ih₁ ih₂ =>
      exact (ih₁ rows).trans (ih₂ rows)

theorem mem_filterTrips (rows : List Row) (r : Row) :
    r ∈ filterTrips rows ↔
      r ∈ rows ∧ puZone r ∧ doZone r ∧ distPred r ∧ farePred r := by
  simp only [filterTrips, List.mem_filter, Bool.and_eq_true]
  tauto

theorem filterTrips_eq_applyFilters (rows : List Row) :
    filterTrips rows = applyFilters rows [puZone, doZone, distPred, farePred] := by
  simp only [filterTrips, applyFilters, List.foldl_cons, List.foldl_nil, List.filter_filter]
  congr 1
  funext r
  cases puZone r <;> cases doZone r <;> cases distPred r <;> cases farePred r <;> rfl

/-- C4: a row appears in the staging output iff it satisfies all four filter
predicates (pickup zone, dropoff zone, distance > 0.1, fare > 2.5); the
chain equals the four predicates applied one by one, and any reordering of a
sequential filter list yields the same result, so rows failing any predicate
are silently dropped. -/
theorem C4_filter_chain (rows : List Row) :
    (∀ r : Row, r ∈ filterTrips rows ↔
      r ∈ rows ∧ puZone r ∧ doZone r ∧ distPred r ∧ farePred r)
    ∧ filterTrips rows = applyFilters rows [puZone, doZone, distPred, farePred]
    ∧ (∀ ps qs : List (Row → Bool), ps.Perm qs →
        applyFilters rows ps = applyFilters rows qs) := by
  exact ⟨fun r => mem_filterTrips rows r, filterTrips_eq_applyFilters rows,
    applyFilters_perm rows⟩

theorem C4_filter_chain_witness :
    (⟨⟨2022, 3, 1, 0, 0, 0, 0⟩, ⟨2022, 3, 1, 0, 10, 0, 0⟩, 3, 18, some 1, some 5⟩ : Row) ∈
      filterTrips [⟨⟨2022, 3, 1, 0, 0, 0, 0⟩, ⟨2022, 3, 1, 0, 10, 0, 0⟩, 3, 18, some 1, some 5⟩]
    ∧ applyFilters [] [puZone, doZone] = applyFilters [] [doZone, puZone] := by
  constructor
  · exact ((C4_filter_chain _).1 _).2
      ⟨by simp, by decide, by decide, by norm_num [distPred, gtQ], by norm_num [farePred, gtQ]⟩
  · exact (C4_filter_chain []).2.2 _ _ (List.Perm.swap doZone puZone [])

/-- C10: a row whose distance or fare is missing (NaN, modelled `none`) never
reaches the staging output, because the strict comparisons evaluate to false
on missing values. -/
theorem C10_nan_rows_dropped (rows : List Row) (r : Row)
    (h : r.trip_distance = none ∨ r.fare_amount = none) :
    r ∉ filterTrips rows := by
  intro hmem
  have hall := (mem_filterTrips rows r).mp hmem
  rcases h with h | h
  · have := hall.2.2.2.1
    rw [distPred, h] at this
    exact Bool.false_ne_true this
  · have := hall.2.2.2.2
    rw [farePred, h] at this
    exact Bool.false_ne_true this

theorem C10_nan_rows_dropped_witness :
    (⟨⟨2022, 3, 1, 0, 0, 0, 0⟩, ⟨2022, 3, 1, 0, 10, 0, 0⟩, 3, 18, none, some 5⟩ : Row) ∉
      filterTrips [⟨⟨2022, 3, 1, 0, 0, 0, 0⟩, ⟨2022, 3, 1, 0, 10, 0, 0⟩, 3, 18, none, some 5⟩] :=
  C10_nan_rows_dropped _ _ (Or.inl rfl)

/-! ### Timestamp reformatting (`pd.to_datetime` + `strftime`) -/

/-- Two-digit zero-padded rendering, as `strftime` does for `%m %d %H %M %S`
on in-range values. -/
def pad2 (n : Nat) : List Char := [Nat.digitChar (n / 10 % 10), Nat.digitChar (n % 10)]

/-- Four-digit zero-padded rendering, as `strftime` does for `%Y` on
in-range years. -/
def pad4 (n : Nat) : List Char :=
  [Nat.digitChar (n / 1000 % 10), Nat.digitChar (n / 100 % 10),
   Nat.digitChar (n / 10 % 10), Nat.digitChar (n % 10)]

/-- `strftime` with format string `%Y-%m-%dT%H:%M:%S`: the nanosecond field
of the parsed datetime is never read, so any sub-second input precision is
truncated, and no timezone suffix is emitted. -/
def fmtTS (t : Timestamp) : String :=
  String.mk (pad4 t.year ++ '-' :: pad2 t.month ++ '-' :: pad2 t.day ++
    'T' :: pad2 t.hour ++ ':' :: pad2 t.minute ++ ':' :: pad2 t.second)

/-- Field ranges under which the fixed-width embedding of `strftime` is
faithful (any datetime pandas can represent satisfies them). -/
def ValidTS (t : Timestamp) : Prop :=
  t.year ≤ 9999 ∧ 1 ≤ t.month ∧ t.month ≤ 12 ∧ 1 ≤ t.day ∧ t.day ≤ 31 ∧
  t.hour ≤ 23 ∧ t.minute ≤ 59 ∧ t.second ≤ 59

/-- Recogniser for the exact textual form `YYYY-MM-DDTHH:MM:SS`: 19
characters, digits and the three fixed separators only, hence no timezone
suffix and no sub-second part. -/
def tsShape (s : String) : Bool :=
  match s.data with
  | [y1, y2, y3, y4, a1, mo1, mo2, a2, d1, d2, a3, h1, h2, a4, mi1, mi2, a5, e1, e2] =>
      y1.isDigit && y2.isDigit && y3.isDigit && y4.isDigit &&
      (a1 == '-') && mo1.isDigit && mo2.isDigit && (a2 == '-') &&
      d1.isDigit && d2.isDigit && (a3 == 'T') && h1.isDigit && h2.isDigit &&
      (a4 == ':') && mi1.isDigit && mi2.isDigit && (a5 == ':') &&
      e1.isDigit && e2.isDigit
  | _ => false

theorem digitChar_isDigit_of_lt (m : Nat) (h : m < 10) :
    (Nat.digitChar m).isDigit = true := by
  revert h
  revert m
  decide

theorem digitChar_mod_isDigit (n : Nat) : (Nat.digitChar (n % 10)).isDigit = true :=
  digitChar_isDigit_of_lt _ (Nat.mod_lt _ (by norm_num))

/-- C7: timestamp reformatting is a pure function whose output is exactly the
19-character pattern `YYYY-MM-DDTHH:MM:SS` (digits plus the fixed separators,
hence no timezone suffix), and the sub-second component of the input is
truncated, not rounded: the output is identical to that of the same
timestamp with its nanosecond field zeroed. -/
theorem C7_timestamp_format (t : Timestamp) (_valid : ValidTS t) :
    tsShape (fmtTS t) = true ∧ (fmtTS t).length = 19 ∧
    fmtTS t = fmtTS ⟨t.year, t.month, t.day, t.hour, t.minute, t.second, 0⟩ := by
  refine ⟨?_, rfl, rfl⟩
  simp only [fmtTS, pad4, pad2, tsShape, List.cons_append, List.nil_append]
  simp [digitChar_mod_isDigit]

theorem C7_timestamp_format_witness :
    tsShape (fmtTS ⟨2022, 3, 14, 9, 26, 53, 589793238⟩) = true :=
  (C7_timestamp_format ⟨2022, 3, 14, 9, 26, 53, 589793238⟩
    ⟨by norm_num, by norm_num, by norm_num, by norm_num, by norm_num,
     by norm_num, by norm_num, by norm_num⟩).1

/-! ### Staging CSV (`to_csv` to the import directory) -/

/-- A row after the in-place timestamp reformatting: both datetime columns
now hold strings, the other four columns are unchanged. -/
structure StagedRow where
  tpep_pickup_datetime : String
  tpep_dropoff_datetime : String
  PULocationID : Int
  DOLocationID : Int
  trip_distance : Option ℚ
  fare_amount : Option ℚ
deriving DecidableEq, Repr

/-- Reformat the two timestamp columns of one surviving row. -/
def stageRow (r : Row) : StagedRow :=
  ⟨fmtTS r.tpep_pickup_datetime, fmtTS r.tpep_dropoff_datetime,
   r.PULocationID, r.DOLocationID, r.trip_distance, r.fare_amount⟩

/-- The in-memory transform of `load_transform_file`: filter chain followed
by timestamp reformatting of every surviving row. -/
def load_transform (rows : List Row) : List StagedRow :=
  (filterTrips rows).map stageRow

/-- One CSV cell: a textual, integer or possibly-missing numeric value. -/
inductive Cell
  | str : String → Cell
  | int : Int → Cell
  | num : Option ℚ → Cell
deriving DecidableEq, Repr

/-- The header row `to_csv` writes: the six column names in dataframe
order. -/
def headerCells : List Cell :=
  [.str "tpep_pickup_datetime", .str "tpep_dropoff_datetime", .str "PULocationID",
   .str "DOLocationID", .str "trip_distance", .str "fare_amount"]

/-- One data row of the staging CSV, columns in dataframe order. -/
def rowCells (r : StagedRow) : List Cell :=
  [.str r.tpep_pickup_datetime, .str r.tpep_dropoff_datetime, .int r.PULocationID,
   .int r.DOLocationID, .num r.trip_distance, .num r.fare_amount]

/-- `trips.to_csv(..., index=False)`: a header row followed by one row per
surviving record. -/
def stagingContent (rows : List Row) : List (List Cell) :=
  headerCells :: (load_transform rows).map rowCells

/-- Python `str.split(sep)` for a one-character separator, on explicit
character lists. -/
def pySplit (sep : Char) : List Char → List (List Char)
  | [] => [[]]
  | c :: cs =>
      if c = sep then [] :: pySplit sep cs
      else
        match pySplit sep cs with
        | [] => [[c]]
        | g :: gs => (c :: g) :: gs

/-- `csv_filename = file_path.split(".")[0] + ".csv"` from
`load_transform_file`. -/
def csvFilename (file_path : String) : String :=
  String.mk ((pySplit '.' file_path.data).headD [] ++ ".csv".data)

/-- The fixed staging location:
`"/var/lib/neo4j/import/" + csv_filename`. -/
def stagingPath (file_path : String) : String :=
  "/var/lib/neo4j/import/" ++ csvFilename file_path

theorem pySplit_ne_nil (sep : Char) (l : List Char) : pySplit sep l ≠ [] := by
  induction l with
  | nil => simp [pySplit]
  | cons c cs ih =>
      rw [pySplit]
      split
      · simp
      · cases h : pySplit sep cs with
        | nil => simp
        | cons g gs => simp

theorem pySplit_headD (sep : Char) (l : List Char) :
    (pySplit sep l).headD [] = l.takeWhile (fun c => c != sep) := by
  induction l with
  | nil => rfl
  | cons c cs ih =>
      rw [pySplit, List.takeWhile_cons]
      by_cases hc : c = sep
      · simp [hc]
      · rw [if_neg hc]
        cases h : pySplit sep cs with
        | nil => exact absurd h (pySplit_ne_nil sep cs)
        | cons g gs =>
            rw [h] at ih
            simp only [List.headD_cons] at ih
            simp [hc, ih]

/-- C8 counterexample: the staging file name is not "the input file name with
its extension replaced by .csv".  On the input path `a.b.parquet` the code
truncates at the first dot and produces `a.csv`, while replacing the
extension would give `a.b.csv`. -/
theorem C8_staging_counterexample :
    csvFilename "a.b.parquet" = "a.csv" ∧ csvFilename "a.b.parquet" ≠ "a.b.csv" := by
  constructor
  · rfl
  · intro h
    rw [show csvFilename "a.b.parquet" = "a.csv" from rfl] at h
    simp at h

/-- C8 (amended): the staging CSV file name is the portion of the input path
before its first `.` with `.csv` appended; it is written under the fixed
directory `/var/lib/neo4j/import/`; and the file holds a header row
followed by the surviving rows, each with the six columns in order
[pickup time, dropoff time, pickup location ID, dropoff location ID,
distance, fare]. -/
theorem C8_staging_file (file_path : String) (rows : List Row) :
    csvFilename file_path =
      String.mk (file_path.data.takeWhile (fun c => c != '.')) ++ ".csv"
    ∧ stagingPath file_path = "/var/lib/neo4j/import/" ++ csvFilename file_path
    ∧ (stagingContent rows).head? = some headerCells
    ∧ (stagingContent rows).length = (filterTrips rows).length + 1
    ∧ ∀ cs ∈ stagingContent rows, cs.length = 6 := by
  refine ⟨?_, rfl, rfl, by simp [stagingContent, load_transform], ?_⟩
  · rw [csvFilename, pySplit_headD]
    rfl
  · intro cs hcs
    have hcs' : cs = headerCells ∨ cs ∈ (load_transform rows).map rowCells :=
      List.mem_cons.mp hcs
    rcases hcs' with h | h
    · rw [h]; rfl
    · simp only [List.mem_map] at h
      obtain ⟨r, -, hr⟩ := h
      rw [← hr]
      rfl

theorem C8_staging_file_witness :
    csvFilename "yellow_tripdata_2022-03.parquet" =
      String.mk ("yellow_tripdata_2022-03.parquet".data.takeWhile (fun c => c != '.')) ++ ".csv"
    ∧ headerCells.length = 6 :=
  ⟨(C8_staging_file "yellow_tripdata_2022-03.parquet" []).1,
   (C8_staging_file "yellow_tripdata_2022-03.parquet" []).2.2.2.2 headerCells
     (by simp [stagingContent])⟩

/-! ### Bulk load (`LOAD CSV ... MERGE`)

The load query runs, for every CSV row,
`MERGE (start:Location {name}) MERGE (end:Location {name})
 MERGE (start)-[t:TRIP {distance, fare, pickup_dt, dropoff_dt}]->(end)`.
Cypher `MERGE` matches the whole pattern and creates it only when no match
exists: a node is matched on its `name`, a relationship on its type, its
direction, its two (already bound) endpoints and all four property values. -/

/-- The four properties the load query puts on a `TRIP` relationship, in
query order. -/
structure TripProps where
  distance : Option ℚ
  fare : Option ℚ
  pickup_dt : String
  dropoff_dt : String
deriving DecidableEq, Repr

/-- A directed `TRIP` relationship between two `Location` names. -/
structure Edge where
  src : Int
  dst : Int
  props : TripProps
deriving DecidableEq, Repr

/-- The persisted graph: `Location` node names and `TRIP` relationships.
Lists keep insertion order; `nodes` stays duplicate-free because nodes are
only ever merged. -/
structure GraphDB where
  nodes : List Int
  edges : List Edge
deriving DecidableEq, Repr

/-- `MERGE (n:Location {name})`: reuse the node when present, else create
it. -/
def mergeNode (g : GraphDB) (n : Int) : GraphDB :=
  if n ∈ g.nodes then g else ⟨g.nodes ++ [n], g.edges⟩

/-- `MERGE (start)-[t:TRIP {...}]->(end)` with both endpoints bound: reuse a
relationship that matches type, direction, endpoints and all properties,
else create it. -/
def mergeEdge (g : GraphDB) (e : Edge) : GraphDB :=
  if e ∈ g.edges then g else ⟨g.nodes, g.edges ++ [e]⟩

/-- The `TRIP` relationship the load query builds from one CSV row. -/
def rowEdge (r : StagedRow) : Edge :=
  ⟨r.PULocationID, r.DOLocationID,
   ⟨r.trip_distance, r.fare_amount, r.tpep_pickup_datetime, r.tpep_dropoff_datetime⟩⟩

/-- Effect of the load query on one CSV row: merge the pickup node, merge
the dropoff node, merge the relationship. -/
def loadRow (g : GraphDB) (r : StagedRow) : GraphDB :=
  mergeEdge (mergeNode (mergeNode g r.PULocationID) r.DOLocationID) (rowEdge r)

/-- `LOAD CSV` processes the staged rows in order. -/
def loadFile (g : GraphDB) (rows : List StagedRow) : GraphDB :=
  rows.foldl loadRow g

/-- Everything row `r` would create is already present in `g`. -/
def RowLoaded (g : GraphDB) (r : StagedRow) : Prop :=
  r.PULocationID ∈ g.nodes ∧ r.DOLocationID ∈ g.nodes ∧ rowEdge r ∈ g.edges

theorem mergeNode_edges (g : GraphDB) (n : Int) : (mergeNode g n).edges = g.edges := by
  rw [mergeNode]; split <;> rfl

theorem mergeEdge_nodes (g : GraphDB) (e : Edge) : (mergeEdge g e).nodes = g.nodes := by
  rw [mergeEdge]; split <;> rfl

theorem mem_mergeNode_self (g : GraphDB) (n : Int) : n ∈ (mergeNode g n).nodes := by
  rw [mergeNode]; split
  · assumption
  · simp

theorem mem_mergeNode_of_mem (g : GraphDB) (n m : Int) (h : m ∈ g.nodes) :
    m ∈ (mergeNode g n).nodes := by
  rw [mergeNode]; split
  · exact h
  · simp [h]

theorem mem_mergeEdge_self (g : GraphDB) (e : Edge) : e ∈ (mergeEdge g e).edges := by
  rw [mergeEdge]; split
  · assumption
  · simp

theorem mem_mergeEdge_of_mem (g : GraphDB) (e f : Edge) (h : f ∈ g.edges) :
    f ∈ (mergeEdge g e).edges := by
  rw [mergeEdge]; split
  · exact h
  · simp [h]

theorem mergeNode_nodup (g : GraphDB) (n : Int) (h : g.nodes.Nodup) :
    (mergeNode g n).nodes.Nodup := by
  rw [mergeNode]; split
  · exact h
  · rename_i hn
    simpa using List.Nodup.concat hn h

theorem loadRow_nodup (g : GraphDB) (r : StagedRow) (h : g.nodes.Nodup) :
    (loadRow g r).nodes.Nodup := by
  rw [loadRow, mergeEdge_nodes]
  exact mergeNode_nodup _ _ (mergeNode_nodup _ _ h)

theorem loadRow_loaded (g : GraphDB) (r : StagedRow) : RowLoaded (loadRow g r) r := by
  refine ⟨?_, ?_, ?_⟩
  · rw [loadRow, mergeEdge_nodes]
    exact mem_mergeNode_of_mem _ _ _ (mem_mergeNode_self _ _)
  · rw [loadRow, mergeEdge_nodes]
    exact mem_mergeNode_self _ _
  · exact mem_mergeEdge_self _ _

theorem loadRow_preserves (g : GraphDB) (r r' : StagedRow) (h : RowLoaded g r) :
    RowLoaded (loadRow g r') r := by
  obtain ⟨h1, h2, h3⟩ := h
  refine ⟨?_, ?_, ?_⟩
  · rw [loadRow, mergeEdge_nodes]
    exact mem_mergeNode_of_mem _ _ _ (mem_mergeNode_of_mem _ _ _ h1)
  · rw [loadRow, mergeEdge_nodes]
    exact mem_mergeNode_of_mem _ _ _ (mem_mergeNode_of_mem _ _ _ h2)
  · rw [loadRow]
    exact mem_mergeEdge_of_mem _ _ _ (by rw [mergeNode_edges, mergeNode_edges]; exact h3)

theorem loadRow_eq_of_loaded (g : GraphDB) (r : StagedRow) (h : RowLoaded g r) :
    loadRow g r = g := by
  obtain ⟨h1, h2, h3⟩ := h
  rw [loadRow]
  rw [show mergeNode g r.PULocationID = g from by rw [mergeNode, if_pos h1]]
  rw [show mergeNode g r.DOLocationID = g from by rw [mergeNode, if_pos h2]]
  rw [mergeEdge, if_pos h3]

theorem loadFile_nodup (rows : List StagedRow) (g : GraphDB) (h : g.nodes.Nodup) :
    (loadFile g rows).nodes.Nodup := by
  induction rows generalizing g with
  | nil => exact h
  | cons r rest ih => exact ih (loadRow g r) (loadRow_nodup g r h)

theorem loadFile_preserves (rows : List StagedRow) (g : GraphDB) (r : StagedRow)
    (h : RowLoaded g r) : RowLoaded (loadFile g rows) r := by
  induction rows generalizing g with
  | nil => exact h
  | cons r' rest ih => exact ih (loadRow g r') (loadRow_preserves g r r' h)

theorem loadFile_all_loaded (rows : List StagedRow) (g : GraphDB) :
    ∀ r ∈ rows, RowLoaded (loadFile g rows) r := by
  induction rows generalizing g with
  | nil => intro r hr; cases hr
  | cons r' rest ih =>
      intro r hr
      rcases List.mem_cons.mp hr with h | h
      · rw [h]
        exact loadFile_preserves rest (loadRow g r') r' (loadRow_loaded g r')
      · exact ih (loadRow g r') r h

theorem loadFile_eq_of_all_loaded (rows : List StagedRow) (g : GraphDB)
    (h : ∀ r ∈ rows, RowLoaded g r) : loadFile g rows = g := by
  induction rows with
  | nil => rfl
  | cons r rest ih =>
      have hr : loadRow g r = g := loadRow_eq_of_loaded g r (h r (List.mem_cons_self r rest))
      show loadFile (loadRow g r) rest = g
      rw [hr]
      exact ih (fun r' hr' => h r' (List.mem_cons_of_mem r hr'))

/-- C1 counterexample: the bulk load does not create a Trip edge
unconditionally, and re-running ingestion on the same one-row input does not
double the Trip edges: the edge is merged, so after loading the same row
twice the graph still holds exactly one Trip edge, not two. -/
theorem C1_bulk_load_counterexample :
    (loadFile (loadFile ⟨[], []⟩
        [⟨"2022-03-01T00:00:00", "2022-03-01T00:10:00", 3, 18, some 1, some 5⟩])
        [⟨"2022-03-01T00:00:00", "2022-03-01T00:10:00", 3, 18, some 1, some 5⟩]).edges.length = 1
    ∧ (1 : Nat) ≠ 2 := by
  constructor
  · rfl
  · decide

/-- C1 (amended): for every row the bulk load upserts the two Location nodes
and merges (creates only if no identical one exists) the Trip edge, so
re-running ingestion on the same input file duplicates neither Location
nodes nor Trip edges: the node list stays duplicate-free and the second run
leaves the graph completely unchanged. -/
theorem C1_bulk_load_idempotent (g : GraphDB) (rows : List StagedRow)
    (h : g.nodes.Nodup) :
    (loadFile g rows).nodes.Nodup
    ∧ loadFile (loadFile g rows) rows = loadFile g rows :=
  ⟨loadFile_nodup rows g h,
   loadFile_eq_of_all_loaded rows (loadFile g rows) (loadFile_all_loaded rows g)⟩

theorem C1_bulk_load_idempotent_witness :
    (loadFile ⟨[], []⟩
      [⟨"2022-03-01T00:00:00", "2022-03-01T00:10:00", 3, 18, some 1, some 5⟩]).nodes.Nodup
    ∧ loadFile (loadFile ⟨[], []⟩
        [⟨"2022-03-01T00:00:00", "2022-03-01T00:10:00", 3, 18, some 1, some 5⟩])
        [⟨"2022-03-01T00:00:00", "2022-03-01T00:10:00", 3, 18, some 1, some 5⟩] =
      loadFile ⟨[], []⟩
        [⟨"2022-03-01T00:00:00", "2022-03-01T00:10:00", 3, 18, some 1, some 5⟩] :=
  C1_bulk_load_idempotent ⟨[], []⟩
    [⟨"2022-03-01T00:00:00", "2022-03-01T00:10:00", 3, 18, some 1, some 5⟩] List.nodup_nil

/-! ### `Interface.pagerank`

The PageRank computation itself and the `ORDER BY score DESC` of the stream
happen inside the external GDS engine; they are modelled from the spec as an
arbitrary per-node score list that the query returns sorted by score
descending.  The max/min reshaping of the sorted record list is embedded
from the Python source. -/

/-- The record ordering of the pagerank query: score descending. -/
def scoreGE (a b : Int × ℚ) : Prop := b.2 ≤ a.2

instance : DecidableRel scoreGE := fun a b => inferInstanceAs (Decidable (b.2 ≤ a.2))

instance : IsTotal (Int × ℚ) scoreGE := ⟨fun a b => le_total b.2 a.2⟩

instance : IsTrans (Int × ℚ) scoreGE := ⟨fun _ _ _ hab hbc => le_trans hbc hab⟩

/-- The Python reshaping in `Interface.pagerank`: on the records as returned
(descending by score), the empty stream gives `[]`, otherwise the first
record (max) and the last record (min) are returned. -/
def pagerankPost (records : List (Int × ℚ)) : List (Int × ℚ) :=
  match records with
  | [] => []
  | r :: rs => [r, rs.getLastD r]

/-- Modelled from the spec: the external engine streams one `(name, score)`
record per node and the query orders them by score descending; the Python
code then keeps the first and last record. -/
def pagerank (scores : List (Int × ℚ)) : List (Int × ℚ) :=
  pagerankPost (List.insertionSort scoreGE scores)

theorem sorted_scoreGE_getLastD (r0 : Int × ℚ) (l : List (Int × ℚ))
    (h : List.Sorted scoreGE (r0 :: l)) :
    ∀ x ∈ r0 :: l, scoreGE x (l.getLastD r0) := by
  induction l generalizing r0 with
  | nil =>
      intro x hx
      rcases List.mem_singleton.mp hx with rfl
      exact le_refl _
  | cons b bs ih =>
      intro x hx
      rw [List.getLastD_cons]
      rcases List.mem_cons.mp hx with rfl | hx'
      · have hlast : bs.getLastD b ∈ b :: bs := List.getLastD_mem_cons bs b
        exact List.rel_of_sorted_cons h _ hlast
      · exact ih b h.of_cons x hx'

/-- C2: the ranking operation sorts nodes by score descending and returns
exactly two entries, the maximum-score node first and the minimum-score node
second, both drawn from the node list; a zero-node graph yields an empty
result, and a one-node graph yields that node as both entries with equal
scores. -/
theorem C2_pagerank_extremes (scores : List (Int × ℚ)) :
    (scores = [] → pagerank scores = [])
    ∧ (scores ≠ [] → ∃ a b, pagerank scores = [a, b] ∧ a ∈ scores ∧ b ∈ scores ∧
        ∀ x ∈ scores, x.2 ≤ a.2 ∧ b.2 ≤ x.2)
    ∧ ∀ x, scores = [x] → pagerank scores = [x, x] := by
  refine ⟨?_, ?_, ?_⟩
  · rintro rfl
    rfl
  · intro hne
    have hperm := List.perm_insertionSort scoreGE scores
    have hsorted := List.sorted_insertionSort scoreGE scores
    cases hrec : List.insertionSort scoreGE scores with
    | nil =>
        rw [hrec] at hperm
        exact absurd hperm.symm.eq_nil hne
    | cons r rs =>
        rw [hrec] at hperm hsorted
        refine ⟨r, rs.getLastD r, ?_, ?_, ?_, ?_⟩
        · rw [pagerank, hrec]
          rfl
        · exact hperm.mem_iff.mp (List.mem_cons_self r rs)
        · exact hperm.mem_iff.mp (List.getLastD_mem_cons rs r)
        · intro x hx
          have hx' : x ∈ r :: rs := hperm.mem_iff.mpr hx
          constructor
          · rcases List.mem_cons.mp hx' with rfl | hx''
            · exact le_refl _
            · exact List.rel_of_sorted_cons hsorted x hx''
          · exact sorted_scoreGE_getLastD r rs hsorted x hx'
  · rintro x rfl
    rfl

theorem C2_pagerank_extremes_witness :
    pagerank [((3 : Int), (2 : ℚ))] = [(3, 2), (3, 2)] :=
  (C2_pagerank_extremes [((3 : Int), (2 : ℚ))]).2.2 (3, 2) rfl

/-! ### `Interface.pagerank` projection setup (GDS catalog) -/

/-- Modelled from the spec: the GDS in-memory graph catalog, holding the
names of the materialized projections. -/
structure GdsCatalog where
  graphNames : List String
deriving DecidableEq, Repr

/-- Modelled from the spec: `gds.graph.drop(name, failIfMissing)` removes
the named projection from the catalog; an absent name is an error only when
`failIfMissing` is true. -/
def gdsGraphDrop (c : GdsCatalog) (nm : String) (failIfMissing : Bool) :
    Except String GdsCatalog :=
  if nm ∈ c.graphNames then Except.ok ⟨c.graphNames.filter (fun x => x != nm)⟩
  else if failIfMissing then Except.error ("Graph " ++ nm ++ " does not exist.")
  else Except.ok c

/-- The drop call issued at the start of every `Interface.pagerank` call:
`gds.graph.drop('myGraph', false)`. -/
def dropStep (c : GdsCatalog) : Except String GdsCatalog :=
  gdsGraphDrop c "myGraph" false

/-- Lookup of the configured weight property on a `TRIP` relationship. -/
def propLookup (p : TripProps) (nm : String) : Option ℚ :=
  if nm = "distance" then p.distance else if nm = "fare" then p.fare else none

/-- Modelled from the spec: the fresh projection keeps every `TRIP` edge,
directed, carrying the named weight property with `defaultValue: 1.0` where
the property is absent. -/
def projectGraph (g : GraphDB) (nm : String) : List (Int × Int × ℚ) :=
  g.edges.map (fun e => (e.src, e.dst, (propLookup e.props nm).getD 1))

/-- C9: at the start of every ranking call the projection drop succeeds
whether or not the projection exists (absence is not an error), afterwards
the fixed name is absent and dropping again is a no-op; and the fresh
projection carries the named weight property per edge, with 1.0 substituted
exactly where the property is absent. -/
theorem C9_projection_setup (c : GdsCatalog) :
    (∃ c', dropStep c = Except.ok c' ∧ "myGraph" ∉ c'.graphNames ∧
      dropStep c' = Except.ok c')
    ∧ ∀ (g : GraphDB) (nm : String) (e : Edge), e ∈ g.edges →
        ((propLookup e.props nm).isNone →
          (e.src, e.dst, (1 : ℚ)) ∈ projectGraph g nm)
        ∧ ∀ q : ℚ, propLookup e.props nm = some q →
          (e.src, e.dst, q) ∈ projectGraph g nm := by
  constructor
  · by_cases hmem : "myGraph" ∈ c.graphNames
    · refine ⟨⟨c.graphNames.filter (fun x => x != "myGraph")⟩, ?_, ?_, ?_⟩
      · rw [dropStep, gdsGraphDrop, if_pos hmem]
      · intro habs
        rcases List.mem_filter.mp habs with ⟨-, hne⟩
        simp at hne
      · rw [dropStep, gdsGraphDrop]
        rw [if_neg ?_]
        · rfl
        · intro habs
          rcases List.mem_filter.mp habs with ⟨-, hne⟩
          simp at hne
    · refine ⟨c, ?_, hmem, ?_⟩ <;>
        simp [dropStep, gdsGraphDrop, hmem]
  · intro g nm e he
    constructor
    · intro hnone
      have : (propLookup e.props nm).getD 1 = 1 := by
        cases hp : propLookup e.props nm
        · rfl
        · rw [hp] at hnone
          cases hnone
      exact List.mem_map.mpr ⟨e, he, by rw [this]⟩
    · intro q hq
      exact List.mem_map.mpr ⟨e, he, by rw [hq]; rfl⟩

theorem C9_projection_setup_witness :
    ((3 : Int), (18 : Int), (5 : ℚ)) ∈
      projectGraph ⟨[3, 18], [⟨3, 18, ⟨some 1, some 5, "a", "b"⟩⟩]⟩ "fare" :=
  ((C9_projection_setup ⟨["myGraph"]⟩).2 ⟨[3, 18], [⟨3, 18, ⟨some 1, some 5, "a", "b"⟩⟩]⟩
    "fare" ⟨3, 18, ⟨some 1, some 5, "a", "b"⟩⟩ (by simp)).2 5 (by rfl)

/-! ### `Interface.bfs`

The Cypher query
`MATCH p = shortestPath((start:Location {name: $s})-[:TRIP*]-(end:Location {name: $e}))`
is executed by the external Neo4j engine.  The spec describes it as an
unweighted, undirected shortest-path search over `TRIP` edges that matches
only when both endpoint nodes exist and some path connects them, returning
the node names from start to end inclusive.  It is modelled here as a
layered search: enumerate all walks of length 0, 1, 2, ... from the start
node and return the first one that reaches the end node (walk lengths up to
the node count suffice, since a shortest walk never repeats a node).  The
Python-side reshaping of the query result is embedded from the source. -/

/-- All nodes one `TRIP` edge away from `u`, in either direction. -/
def neighbors (g : GraphDB) (u : Int) : List Int :=
  (g.edges.filter (fun e => e.src == u)).map Edge.dst ++
  (g.edges.filter (fun e => e.dst == u)).map Edge.src

/-- Undirected adjacency over `TRIP` edges. -/
def Adj (g : GraphDB) (u v : Int) : Prop := v ∈ neighbors g u

instance (g : GraphDB) : DecidableRel (Adj g) :=
  fun u v => inferInstanceAs (Decidable (v ∈ neighbors g u))

/-- `p` is a walk through the graph from `s` to `t` inclusive. -/
def IsWalk (g : GraphDB) (p : List Int) (s t : Int) : Prop :=
  p.head? = some s ∧ p.getLast? = some t ∧ p.Chain' (Adj g)

instance (g : GraphDB) (p : List Int) (s t : Int) : Decidable (IsWalk g p s t) :=
  inferInstanceAs (Decidable (_ ∧ _ ∧ _))

/-- All walks of edge-count `k` starting at `s`, each stored reversed (the
current endpoint first, `s` last). -/
def rwalks (g : GraphDB) (s : Int) : Nat → List (List Int)
  | 0 => [[s]]
  | k + 1 =>
      (rwalks g s k).flatMap (fun w => (neighbors g (w.headD s)).map (fun v => v :: w))

/-- The first walk of edge-count exactly `k` from `s` that reaches `t`,
returned in start-to-end order. -/
def findWalkAt (g : GraphDB) (s t : Int) (k : Nat) : Option (List Int) :=
  ((rwalks g s k).find? (fun w => w.headD s == t)).map List.reverse

/-- Try walk lengths `k, k+1, ...` while fuel lasts, returning the first
length at which `t` is reached. -/
def searchWalk (g : GraphDB) (s t : Int) : Nat → Nat → Option (List Int)
  | _, 0 => none
  | k, fuel + 1 =>
      match findWalkAt g s t k with
      | some p => some p
      | none => searchWalk g s t (k + 1) fuel

/-- Modelled from the spec: the engine-side shortest-path match.  It
succeeds only when both named `Location` nodes exist and some walk connects
them, and then yields a minimum-edge-count walk from start to end
inclusive. -/
def shortestPathQuery (g : GraphDB) (s t : Int) : Option (List Int) :=
  if s ∈ g.nodes ∧ t ∈ g.nodes then searchWalk g s t 0 (g.nodes.length + 1)
  else none

/-- The Python reshaping in `Interface.bfs`: no record gives `[]`, one
record gives the single path as a list of node names. -/
def bfs (g : GraphDB) (s t : Int) : List (List Int) :=
  match shortestPathQuery g s t with
  | none => []
  | some p => [p]

/-- Every edge endpoint names an existing `Location` node; the ingestion
pipeline guarantees this because nodes are merged before the edge. -/
def WF (g : GraphDB) : Prop := ∀ e ∈ g.edges, e.src ∈ g.nodes ∧ e.dst ∈ g.nodes

theorem mem_neighbors (g : GraphDB) (u v : Int) :
    v ∈ neighbors g u ↔
      (∃ e ∈ g.edges, e.src = u ∧ e.dst = v) ∨ (∃ e ∈ g.edges, e.dst = u ∧ e.src = v) := by
  simp only [neighbors, List.mem_append, List.mem_map, List.mem_filter, beq_iff_eq]
  constructor
  · rintro (⟨e, ⟨he, hs⟩, hd⟩ | ⟨e, ⟨he, hd⟩, hs⟩)
    · exact Or.inl ⟨e, he, hs, hd⟩
    · exact Or.inr ⟨e, he, hd, hs⟩
  · rintro (⟨e, he, hs, hd⟩ | ⟨e, he, hd, hs⟩)
    · exact Or.inl ⟨e, ⟨he, hs⟩, hd⟩
    · exact Or.inr ⟨e, ⟨he, hd⟩, hs⟩

theorem adj_symm (g : GraphDB) {u v : Int} (h : Adj g u v) : Adj g v u := by
  rw [Adj, mem_neighbors] at h ⊢
  rcases h with ⟨e, he, hs, hd⟩ | ⟨e, he, hd, hs⟩
  · exact Or.inr ⟨e, he, hd, hs⟩
  · exact Or.inl ⟨e, he, hs, hd⟩

theorem adj_mem_nodes (g : GraphDB) (hwf : WF g) {u v : Int} (h : Adj g u v) :
    v ∈ g.nodes := by
  rw [Adj, mem_neighbors] at h
  rcases h with ⟨e, he, -, hd⟩ | ⟨e, he, -, hs⟩
  · exact hd ▸ (hwf e he).2
  · exact hs ▸ (hwf e he).1

theorem rwalks_sound (g : GraphDB) (s : Int) :
    ∀ (k : Nat), ∀ w ∈ rwalks g s k,
      w.length = k + 1 ∧ w.getLast? = some s ∧ w.Chain' (Adj g) := by
  intro k
  induction k with
  | zero =>
      intro w hw
      rcases List.mem_singleton.mp hw with rfl
      exact ⟨rfl, rfl, List.chain'_singleton s⟩
  | succ k ih =>
      intro w hw
      rw [rwalks] at hw
      obtain ⟨w', hw', hmem⟩ := List.mem_flatMap.mp hw
      obtain ⟨v, hv, rfl⟩ := List.mem_map.mp hmem
      obtain ⟨hlen, hlast, hchain⟩ := ih w' hw'
      cases w' with
      | nil => cases hlen
      | cons a rest =>
          rw [List.headD_cons] at hv
          refine ⟨by simpa using hlen, ?_, ?_⟩
          · rw [List.getLast?_cons_cons]
            exact hlast
          · rw [List.chain'_cons']
            exact ⟨fun h hh => by
              rw [List.head?_cons, Option.mem_some_iff] at hh
              exact hh ▸ adj_symm g hv, hchain⟩

theorem rwalks_complete (g : GraphDB) (s : Int) :
    ∀ (k : Nat) (p : List Int), p.length = k + 1 → p.getLast? = some s →
      p.Chain' (Adj g) → p ∈ rwalks g s k := by
  intro k
  induction k with
  | zero =>
      intro p hlen hlast _
      cases p with
      | nil => cases hlen
      | cons a rest =>
          cases rest with
          | nil =>
              rw [List.getLast?_singleton, Option.some_inj] at hlast
              rw [hlast]
              exact List.mem_singleton.mpr rfl
          | cons b rest' => simp at hlen
  | succ k ih =>
      intro p hlen hlast hchain
      cases p with
      | nil => cases hlen
      | cons v w =>
          cases w with
          | nil => simp at hlen
          | cons a rest =>
              have hw_len : (a :: rest).length = k + 1 := by simpa using hlen
              have hw_last : (a :: rest).getLast? = some s := by
                rw [List.getLast?_cons_cons] at hlast
                exact hlast
              obtain ⟨hadj, hchain'⟩ := List.chain'_cons'.mp hchain
              have hmem := ih (a :: rest) hw_len hw_last hchain'
              rw [rwalks]
              refine List.mem_flatMap.mpr ⟨a :: rest, hmem, List.mem_map.mpr ⟨v, ?_, rfl⟩⟩
              rw [List.headD_cons]
              exact adj_symm g (hadj a rfl)

theorem findWalkAt_sound (g : GraphDB) (s t : Int) (k : Nat) (p : List Int)
    (h : findWalkAt g s t k = some p) : IsWalk g p s t ∧ p.length = k + 1 := by
  rw [findWalkAt] at h
  obtain ⟨w, hfind, rfl⟩ := Option.map_eq_some'.mp h
  have hw_mem := List.mem_of_find?_eq_some hfind
  have hw_pred := List.find?_some hfind
  obtain ⟨hlen, hlast, hchain⟩ := rwalks_sound g s k w hw_mem
  cases w with
  | nil => cases hlen
  | cons a rest =>
      rw [List.headD_cons, beq_iff_eq] at hw_pred
      refine ⟨⟨?_, ?_, ?_⟩, by simpa using hlen⟩
      · rw [List.head?_reverse]
        exact hlast
      · rw [List.getLast?_reverse, List.head?_cons, hw_pred]
      · rw [List.chain'_reverse]
        exact List.Chain'.imp (fun x y hxy => adj_symm g hxy) hchain

theorem findWalkAt_ne_none (g : GraphDB) (s t : Int) (q : List Int)
    (h : IsWalk g q s t) : findWalkAt g s t (q.length - 1) ≠ none := by
  obtain ⟨hhead, hlast, hchain⟩ := h
  cases q with
  | nil => cases hhead
  | cons a rest =>
      rw [List.head?_cons, Option.some_inj] at hhead
      have hmem : (a :: rest).reverse ∈ rwalks g s ((a :: rest).length - 1) := by
        refine rwalks_complete g s _ _ ?_ ?_ ?_
        · rw [List.length_reverse]
          simp
        · rw [List.getLast?_reverse, List.head?_cons, hhead]
        · rw [List.chain'_reverse]
          exact List.Chain'.imp (fun x y hxy => adj_symm g hxy) hchain
      intro hnone
      rw [findWalkAt, Option.map_eq_none'] at hnone
      have := List.find?_eq_none.mp hnone _ hmem
      rw [List.headD_eq_head?_getD, List.head?_reverse, hlast] at this
      simp at this

theorem searchWalk_some (g : GraphDB) (s t : Int) :
    ∀ (fuel k : Nat) (p : List Int), searchWalk g s t k fuel = some p →
      ∃ j, k ≤ j ∧ findWalkAt g s t j = some p ∧
        ∀ i, k ≤ i → i < j → findWalkAt g s t i = none := by
  intro fuel
  induction fuel with
  | zero => intro k p h; cases h
  | succ fuel ih =>
      intro k p h
      rw [searchWalk] at h
      cases hf : findWalkAt g s t k with
      | some q =>
          rw [hf] at h
          refine ⟨k, le_refl k, ?_, fun i hki hik => absurd (lt_of_le_of_lt hki hik) (lt_irrefl k)⟩
          cases h
          exact hf
      | none =>
          rw [hf] at h
          obtain ⟨j, hkj, hfj, hbelow⟩ := ih (k + 1) p h
          refine ⟨j, le_trans (Nat.le_succ k) hkj, hfj, ?_⟩
          intro i hki hij
          rcases Nat.eq_or_lt_of_le hki with rfl | hlt
          · exact hf
          · exact hbelow i hlt hij

theorem searchWalk_none (g : GraphDB) (s t : Int) :
    ∀ (fuel k : Nat), searchWalk g s t k fuel = none →
      ∀ j, k ≤ j → j < k + fuel → findWalkAt g s t j = none := by
  intro fuel
  induction fuel with
  | zero => intro k _ j hkj hlt; omega
  | succ fuel ih =>
      intro k h j hkj hlt
      rw [searchWalk] at h
      cases hf : findWalkAt g s t k with
      | some q => rw [hf] at h; cases h
      | none =>
          rw [hf] at h
          rcases Nat.eq_or_lt_of_le hkj with rfl | hgt
          · exact hf
          · exact ih (k + 1) h j hgt (by omega)

theorem walk_reflTransGen (g : GraphDB) :
    ∀ (p : List Int) (s t : Int), IsWalk g p s t →
      Relation.ReflTransGen (Adj g) s t := by
  intro p
  induction p with
  | nil => intro s t h; cases h.1
  | cons a rest ih =>
      intro s t h
      obtain ⟨hhead, hlast, hchain⟩ := h
      rw [List.head?_cons, Option.some_inj] at hhead
      cases rest with
      | nil =>
          rw [List.getLast?_singleton, Option.some_inj] at hlast
          rw [← hhead, ← hlast]
      | cons b rest' =>
          obtain ⟨hadj, hchain'⟩ := List.chain'_cons'.mp hchain
          have hlast' : (b :: rest').getLast? = some t := by
            rw [List.getLast?_cons_cons] at hlast
            exact hlast
          have htail := ih b t ⟨rfl, hlast', hchain'⟩
          exact hhead ▸ Relation.ReflTransGen.head (hadj b rfl) htail

theorem reflTransGen_nodup_walk (g : GraphDB) (s t : Int)
    (h : Relation.ReflTransGen (Adj g) s t) :
    ∃ q, IsWalk g q s t ∧ q.Nodup := by
  induction h using Relation.ReflTransGen.head_induction_on with
  | refl => exact ⟨[t], ⟨rfl, rfl, List.chain'_singleton t⟩, List.nodup_singleton t⟩
  | head hadj _ ih =>
      rename_i a c _
      obtain ⟨q, ⟨hhead, hlast, hchain⟩, hnd⟩ := ih
      by_cases hmem : a ∈ q
      · obtain ⟨q₁, q₂, rfl⟩ := List.append_of_mem hmem
        refine ⟨a :: q₂, ⟨rfl, ?_, ?_⟩, ?_⟩
        · rw [← hlast, List.getLast?_append_of_ne_nil q₁ (by simp)]
        · exact (List.chain'_append.mp hchain).2.1
        · exact (List.sublist_append_right q₁ (a :: q₂)).nodup hnd
      · cases q with
        | nil => cases hhead
        | cons b q' =>
            rw [List.head?_cons, Option.some_inj] at hhead
            refine ⟨a :: b :: q', ⟨rfl, ?_, ?_⟩, ?_⟩
            · rw [List.getLast?_cons_cons]
              exact hlast
            · rw [List.chain'_cons']
              refine ⟨fun x hx => ?_, hchain⟩
              rw [List.head?_cons, Option.mem_some_iff] at hx
              subst hx
              rw [hhead]
              exact hadj
            · exact List.nodup_cons.mpr ⟨hmem, hnd⟩

theorem walk_subset_nodes (g : GraphDB) (hwf : WF g) :
    ∀ (p : List Int) (s : Int), p.head? = some s → s ∈ g.nodes →
      p.Chain' (Adj g) → ∀ x ∈ p, x ∈ g.nodes := by
  intro p
  induction p with
  | nil => intro s _ _ _ x hx; cases hx
  | cons a rest ih =>
      intro s hhead hs hchain x hx
      rw [List.head?_cons, Option.some_inj] at hhead
      rcases List.mem_cons.mp hx with rfl | hx'
      · exact hhead ▸ hs
      · cases rest with
        | nil => cases hx'
        | cons b rest' =>
            obtain ⟨hadj, hchain'⟩ := List.chain'_cons'.mp hchain
            have hb : b ∈ g.nodes := adj_mem_nodes g hwf (hadj b rfl)
            exact ih b rfl hb hchain' x hx'

/-- C3: shortest path from a node to itself yields the single-node path when
the node exists and the empty result when it does not. -/
theorem C3_bfs_self (g : GraphDB) (x : Int) :
    (x ∈ g.nodes → bfs g x x = [[x]]) ∧ (x ∉ g.nodes → bfs g x x = []) := by
  constructor
  · intro hx
    have h0 : findWalkAt g x x 0 = some [x] := by
      simp [findWalkAt, rwalks]
    have h1 : shortestPathQuery g x x = some [x] := by
      rw [shortestPathQuery, if_pos ⟨hx, hx⟩, searchWalk, h0]
    simp [bfs, h1]
  · intro hx
    have h1 : shortestPathQuery g x x = none := by
      rw [shortestPathQuery, if_neg (fun hc => hx hc.1)]
    simp [bfs, h1]

theorem C3_bfs_self_witness :
    bfs ⟨[7], []⟩ 7 7 = [[7]] ∧ bfs ⟨[7], []⟩ 8 8 = [] :=
  ⟨(C3_bfs_self ⟨[7], []⟩ 7).1 (by simp),
   (C3_bfs_self ⟨[7], []⟩ 8).2 (by simp)⟩

/-- C6: when either endpoint node is absent or no path connects the two
nodes, the shortest-path operation returns an empty result rather than an
error. -/
theorem C6_bfs_empty (g : GraphDB) (s t : Int)
    (h : s ∉ g.nodes ∨ t ∉ g.nodes ∨ ¬∃ p, IsWalk g p s t) :
    bfs g s t = [] := by
  by_cases hmem : s ∈ g.nodes ∧ t ∈ g.nodes
  · rcases h with h | h | h
    · exact absurd hmem.1 h
    · exact absurd hmem.2 h
    · cases hsw : searchWalk g s t 0 (g.nodes.length + 1) with
      | none =>
          have h1 : shortestPathQuery g s t = none := by
            rw [shortestPathQuery, if_pos hmem, hsw]
          simp [bfs, h1]
      | some p =>
          obtain ⟨j, -, hfj, -⟩ := searchWalk_some g s t _ 0 p hsw
          exact absurd ⟨p, (findWalkAt_sound g s t j p hfj).1⟩ h
  · have h1 : shortestPathQuery g s t = none := by
      rw [shortestPathQuery, if_neg hmem]
    simp [bfs, h1]

theorem C6_bfs_empty_witness :
    bfs ⟨[1, 2], []⟩ 5 1 = [] :=
  C6_bfs_empty ⟨[1, 2], []⟩ 5 1 (Or.inl (by decide))

/-- C5: for existing, connected endpoints the shortest-path operation
returns exactly one path; it is a walk over Trip edges (undirected) from the
start node to the end node inclusive, and no walk between the two nodes has
fewer edges. -/
theorem C5_bfs_shortest (g : GraphDB) (s t : Int) (hwf : WF g)
    (hs : s ∈ g.nodes) (ht : t ∈ g.nodes) (hconn : ∃ p, IsWalk g p s t) :
    ∃ p, bfs g s t = [p] ∧ IsWalk g p s t ∧
      ∀ q, IsWalk g q s t → p.length ≤ q.length := by
  obtain ⟨p0, hp0⟩ := hconn
  obtain ⟨q0, hq0, hq0nd⟩ :=
    reflTransGen_nodup_walk g s t (walk_reflTransGen g p0 s t hp0)
  have hq0sub : ∀ x ∈ q0, x ∈ g.nodes :=
    walk_subset_nodes g hwf q0 s hq0.1 hs hq0.2.2
  have hq0len : q0.length ≤ g.nodes.length :=
    (List.subperm_of_subset hq0nd hq0sub).length_le
  have hq0pos : 1 ≤ q0.length := by
    cases q0 with
    | nil => cases hq0.1
    | cons a rest => simp
  have hfind := findWalkAt_ne_none g s t q0 hq0
  cases hsw : searchWalk g s t 0 (g.nodes.length + 1) with
  | none =>
      exact absurd
        (searchWalk_none g s t (g.nodes.length + 1) 0 hsw (q0.length - 1)
          (Nat.zero_le _) (by omega)) hfind
  | some p =>
      obtain ⟨j, -, hfj, hbelow⟩ := searchWalk_some g s t _ 0 p hsw
      obtain ⟨hwalk, hplen⟩ := findWalkAt_sound g s t j p hfj
      have h1 : shortestPathQuery g s t = some p := by
        rw [shortestPathQuery, if_pos ⟨hs, ht⟩, hsw]
      refine ⟨p, by simp [bfs, h1], hwalk, ?_⟩
      intro q hq
      by_contra hlt
      push_neg at hlt
      have hqpos : 1 ≤ q.length := by
        cases q with
        | nil => cases hq.1
        | cons a rest => simp
      exact findWalkAt_ne_none g s t q hq
        (hbelow (q.length - 1) (Nat.zero_le _) (by omega))

theorem C5_bfs_shortest_witness :
    ∃ p, bfs ⟨[1, 2], [⟨1, 2, ⟨some 1, some 5, "a", "b"⟩⟩]⟩ 1 2 = [p] ∧
      IsWalk ⟨[1, 2], [⟨1, 2, ⟨some 1, some 5, "a", "b"⟩⟩]⟩ p 1 2 ∧
      ∀ q, IsWalk ⟨[1, 2], [⟨1, 2, ⟨some 1, some 5, "a", "b"⟩⟩]⟩ q 1 2 →
        p.length ≤ q.length :=
  C5_bfs_shortest ⟨[1, 2], [⟨1, 2, ⟨some 1, some 5, "a", "b"⟩⟩]⟩ 1 2
    (by intro e he; rcases List.mem_singleton.mp he with rfl; exact ⟨by simp, by simp⟩)
    (by simp) (by simp)
    ⟨[1, 2], rfl, rfl, List.chain'_cons.mpr ⟨by decide, List.chain'_singleton 2⟩⟩

end DPS
